import Mathlib

set_option maxHeartbeats 1000000

namespace RagChat

/-! Verification development for the RAG chat frontend.
    Strings are modelled as lists of characters.  The SSE frame decoder is
    taken from `src/frontend/src/api/client.ts` (`streamChat`), the streaming
    state machine from the `Chat` component, the upload extension check from
    `FileUpload.tsx`, and the session-list operations from `App.tsx`. -/

/-- JS `String.prototype.trim` whitespace test (ASCII whitespace plus NBSP). -/
def jsSpace (c : Char) : Bool :=
  c = ' ' || c = '\t' || c = '\n' || c = '\r' || c = '\x0b' || c = '\x0c' || c = ' '

/-- JS `s.trim()` on a list of characters. -/
def trimChars (l : List Char) : List Char :=
  ((l.dropWhile jsSpace).reverse.dropWhile jsSpace).reverse

/-- JS `buffer.split("\n\n")`: greedy leftmost split on the two-character
    delimiter, returning the list of (possibly empty) segments. -/
def splitNN : List Char → List (List Char)
  | [] => [[]]
  | [c] => [[c]]
  | c :: d :: rest =>
    if c = '\n' ∧ d = '\n' then
      [] :: splitNN rest
    else
      (c :: (splitNN (d :: rest)).headD []) :: (splitNN (d :: rest)).tail

theorem splitNN_ne_nil : ∀ l : List Char, splitNN l ≠ []
  | [] => by simp [splitNN]
  | [c] => by simp [splitNN]
  | c :: d :: rest => by
      simp only [splitNN]
      split <;> simp

theorem splitNN_singleton : ∀ (l s : List Char), splitNN l = [s] → s = l
  | [], s => by
      intro h
      simp [splitNN] at h
      exact h
  | [c], s => by
      intro h
      simp [splitNN] at h
      exact h.symm
  | c :: d :: rest, s => by
      intro h
      simp only [splitNN] at h
      by_cases hnn : c = '\n' ∧ d = '\n'
      · rw [if_pos hnn] at h
        cases hM : splitNN rest with
        | nil => exact absurd hM (splitNN_ne_nil rest)
        | cons x xs => rw [hM] at h; simp at h
      · rw [if_neg hnn] at h
        cases hM : splitNN (d :: rest) with
        | nil => exact absurd hM (splitNN_ne_nil _)
        | cons m ms =>
          rw [hM] at h
          simp only [List.headD_cons, List.tail_cons, List.cons.injEq] at h
          obtain ⟨h1, h2⟩ := h
          have hm : m = d :: rest := splitNN_singleton (d :: rest) m (by rw [hM, h2])
          rw [← h1, hm]

theorem getLastD_cons₂ {α : Type} (x y : α) (l : List α) (d : α) :
    List.getLastD (x :: y :: l) d = List.getLastD (y :: l) d := by
  simp [List.getLastD]

theorem dropLast_cons₂ {α : Type} (x y : α) (l : List α) :
    List.dropLast (x :: y :: l) = x :: List.dropLast (y :: l) := rfl

/-- The trailing segment of a split never contains the delimiter: splitting it
    again returns it unchanged. -/
theorem splitNN_getLastD : ∀ l : List Char,
    splitNN ((splitNN l).getLastD []) = [(splitNN l).getLastD []]
  | [] => by simp [splitNN]
  | [c] => by simp [splitNN]
  | c :: d :: rest => by
      simp only [splitNN]
      by_cases hnn : c = '\n' ∧ d = '\n'
      · rw [if_pos hnn]
        cases hM : splitNN rest with
        | nil => exact absurd hM (splitNN_ne_nil rest)
        | cons x xs =>
          rw [getLastD_cons₂]
          have := splitNN_getLastD rest
          rwa [hM] at this
      · rw [if_neg hnn]
        cases hM : splitNN (d :: rest) with
        | nil => exact absurd hM (splitNN_ne_nil _)
        | cons m ms =>
          simp only [List.headD_cons, List.tail_cons]
          cases hms : ms with
          | nil =>
            have hm : m = d :: rest := splitNN_singleton (d :: rest) m (by rw [hM, hms])
            simp only [List.getLastD]
            show splitNN (c :: m) = [c :: m]
            rw [hm]
            simp only [splitNN]
            rw [if_neg hnn, hM, hms]
            simp [hm]
          | cons y ys =>
            subst hms
            rw [getLastD_cons₂ (c :: m) y ys]
            have IH := splitNN_getLastD (d :: rest)
            rw [hM, getLastD_cons₂ m y ys] at IH
            exact IH

theorem splitNN_nn (rest : List Char) :
    splitNN ('\n' :: '\n' :: rest) = [] :: splitNN rest := by
  simp [splitNN]

theorem splitNN_cons (c d : Char) (rest : List Char) (h : ¬(c = '\n' ∧ d = '\n')) :
    splitNN (c :: d :: rest) =
      (c :: (splitNN (d :: rest)).headD []) :: (splitNN (d :: rest)).tail := by
  simp only [splitNN]
  rw [if_neg h]

/-- Splitting a concatenation equals splitting the first part, keeping its
    trailing segment as a carry, and splitting the carry prepended to the
    second part.  This is the compositionality fact behind chunk-boundary
    independence of the SSE decoder. -/
theorem splitNN_append : ∀ (a b : List Char),
    splitNN (a ++ b) =
      (splitNN a).dropLast ++ splitNN ((splitNN a).getLastD [] ++ b)
  | [], b => by simp [splitNN]
  | [c], b => by simp [splitNN]
  | c :: d :: rest, b => by
      by_cases hnn : c = '\n' ∧ d = '\n'
      · obtain ⟨hc, hd⟩ := hnn
        subst hc; subst hd
        have IH := splitNN_append rest b
        rw [show ('\n' :: '\n' :: rest : List Char) ++ b = '\n' :: '\n' :: (rest ++ b) from rfl,
          splitNN_nn, splitNN_nn, IH]
        cases hM : splitNN rest with
        | nil => exact absurd hM (splitNN_ne_nil rest)
        | cons m ms => simp [getLastD_cons₂, dropLast_cons₂]
      · rw [show (c :: d :: rest) ++ b = c :: d :: (rest ++ b) from rfl,
          splitNN_cons c d rest hnn]
        cases hM : splitNN (d :: rest) with
        | nil => exact absurd hM (splitNN_ne_nil _)
        | cons m ms =>
          simp only [List.headD_cons, List.tail_cons]
          cases ms with
          | nil =>
            have hm : m = d :: rest := splitNN_singleton _ _ hM
            subst hm
            simp [List.getLastD]
          | cons y ys =>
            rw [splitNN_cons c d (rest ++ b) hnn]
            have IH := splitNN_append (d :: rest) b
            rw [show (d :: rest) ++ b = d :: (rest ++ b) from rfl] at IH
            rw [IH, hM]
            simp only [dropLast_cons₂, List.cons_append, List.headD_cons, List.tail_cons]
            rw [getLastD_cons₂ (c :: m) y ys, getLastD_cons₂ m y ys]

/-- One step of the decoder loop in `streamChat`: append the chunk to the
    buffer, split on the delimiter, emit the completed segments and keep the
    trailing segment (`lines.pop() || ""`) as the new buffer. -/
def feed (buffer chunk : List Char) : List (List Char) × List Char :=
  ((splitNN (buffer ++ chunk)).dropLast, (splitNN (buffer ++ chunk)).getLastD [])

/-- The decoder read loop: process every chunk in order, threading the buffer;
    the trailing buffer at end of stream is dropped. -/
def feedAll : List Char → List (List Char) → List (List Char)
  | _, [] => []
  | buffer, c :: cs => (feed buffer c).1 ++ feedAll (feed buffer c).2 cs

/-- Segments emitted by the decoder started with an empty buffer. -/
def decodeSegments (chunks : List (List Char)) : List (List Char) :=
  feedAll [] chunks

theorem feedAll_canonical : ∀ (cs : List (List Char)) (st : List Char),
    splitNN st = [st] → feedAll st cs = (splitNN (st ++ cs.flatten)).dropLast
  | [], st, h => by simp [feedAll, h]
  | c :: cs, st, _ => by
      have h2 := splitNN_getLastD (st ++ c)
      have IH := feedAll_canonical cs ((splitNN (st ++ c)).getLastD []) h2
      have happ := splitNN_append (st ++ c) cs.flatten
      simp only [feedAll, feed, IH, List.flatten_cons, ← List.append_assoc, happ]
      rw [List.dropLast_append_of_ne_nil _ (splitNN_ne_nil _)]

/-- The segments emitted by the decoder depend only on the concatenation of the
    chunks: they are the full split minus the trailing segment. -/
theorem decodeSegments_canonical (chunks : List (List Char)) :
    decodeSegments chunks = (splitNN chunks.flatten).dropLast := by
  have := feedAll_canonical chunks [] (by simp [splitNN])
  simpa [decodeSegments] using this

/-! JSON values and a JSON parser modelling the platform `JSON.parse` used by
    the decoder.  Numbers are stored as mantissa and decimal exponent. -/

inductive Json where
  | null
  | bool (b : Bool)
  | num (mantissa : Int) (exp10 : Int)
  | str (s : List Char)
  | arr (elems : List Json)
  | obj (fields : List (List Char × Json))

/-- JSON whitespace. -/
def jsonWs (c : Char) : Bool := c = ' ' || c = '\t' || c = '\n' || c = '\r'

def skipWs (s : List Char) : List Char := s.dropWhile jsonWs

def hexDigit? (c : Char) : Option Nat :=
  if '0' ≤ c ∧ c ≤ '9' then some (c.toNat - '0'.toNat)
  else if 'a' ≤ c ∧ c ≤ 'f' then some (c.toNat - 'a'.toNat + 10)
  else if 'A' ≤ c ∧ c ≤ 'F' then some (c.toNat - 'A'.toNat + 10)
  else none

/-- Body of a JSON string literal after the opening quote; returns the decoded
    characters and the input remaining after the closing quote. -/
def parseStringBody : Nat → List Char → Option (List Char × List Char)
  | 0, _ => none
  | _, [] => none
  | fuel + 1, c :: rest =>
    if c = '"' then some ([], rest)
    else if c = '\\' then
      match rest with
      | [] => none
      | e :: rest2 =>
        let cont := fun (ch : Char) (rem : List Char) =>
          (parseStringBody fuel rem).map (fun p => (ch :: p.1, p.2))
        if e = '"' then cont '"' rest2
        else if e = '\\' then cont '\\' rest2
        else if e = '/' then cont '/' rest2
        else if e = 'b' then cont '\x08' rest2
        else if e = 'f' then cont '\x0c' rest2
        else if e = 'n' then cont '\n' rest2
        else if e = 'r' then cont '\r' rest2
        else if e = 't' then cont '\t' rest2
        else if e = 'u' then
          match rest2 with
          | h1 :: h2 :: h3 :: h4 :: rest3 =>
            match hexDigit? h1, hexDigit? h2, hexDigit? h3, hexDigit? h4 with
            | some a, some b2, some c2, some d2 =>
              cont (Char.ofNat (((a * 16 + b2) * 16 + c2) * 16 + d2)) rest3
            | _, _, _, _ => none
          | _ => none
        else none
    else if c.toNat < 32 then none
    else (parseStringBody fuel rest).map (fun p => (c :: p.1, p.2))

def isDigitChar (c : Char) : Bool := '0' ≤ c && c ≤ '9'

def digitsToNat (ds : List Char) : Nat :=
  ds.foldl (fun n c => n * 10 + (c.toNat - '0'.toNat)) 0

/-- A JSON number literal: optional minus, integer part with no leading zero,
    optional fraction, optional exponent. -/
def parseNumber (s : List Char) : Option ((Int × Int) × List Char) :=
  let (neg, s1) := match s with
    | '-' :: r => (true, r)
    | _ => (false, s)
  let ip := s1.takeWhile isDigitChar
  let s2 := s1.dropWhile isDigitChar
  if ip = [] then none
  else if 1 < ip.length ∧ ip.headD '0' = '0' then none
  else
    let fracRes : Option (List Char × List Char) :=
      match s2 with
      | '.' :: r =>
        let fp := r.takeWhile isDigitChar
        if fp = [] then none else some (fp, r.dropWhile isDigitChar)
      | _ => some ([], s2)
    match fracRes with
    | none => none
    | some (fp, s3) =>
      let expRes : Option (Int × List Char) :=
        match s3 with
        | e :: r =>
          if e = 'e' ∨ e = 'E' then
            let (esign, r1) : Int × List Char := match r with
              | '+' :: rr => (1, rr)
              | '-' :: rr => (-1, rr)
              | _ => (1, r)
            let ed := r1.takeWhile isDigitChar
            if ed = [] then none
            else some (esign * (digitsToNat ed : Int), r1.dropWhile isDigitChar)
          else some (0, s3)
        | [] => some (0, s3)
      match expRes with
      | none => none
      | some (ex, s4) =>
        let mant : Int := (digitsToNat (ip ++ fp) : Int)
        some ((if neg then -mant else mant, ex - fp.length), s4)

mutual

/-- One JSON value, consuming leading whitespace. -/
def parseVal : Nat → List Char → Option (Json × List Char)
  | 0, _ => none
  | fuel + 1, s =>
    match skipWs s with
    | 'n' :: 'u' :: 'l' :: 'l' :: r => some (.null, r)
    | 't' :: 'r' :: 'u' :: 'e' :: r => some (.bool true, r)
    | 'f' :: 'a' :: 'l' :: 's' :: 'e' :: r => some (.bool false, r)
    | '"' :: r => (parseStringBody fuel r).map (fun p => (.str p.1, p.2))
    | '[' :: r =>
      (match skipWs r with
       | ']' :: r2 => some (.arr [], r2)
       | _ => (parseItems fuel r).map (fun p => (.arr p.1, p.2)))
    | '\x7b' :: r =>
      (match skipWs r with
       | '\x7d' :: r2 => some (.obj [], r2)
       | _ => (parseFields fuel r).map (fun p => (.obj p.1, p.2)))
    | rest => (parseNumber rest).map (fun p => (.num p.1.1 p.1.2, p.2))

/-- Comma-separated array elements up to the closing bracket. -/
def parseItems : Nat → List Char → Option (List Json × List Char)
  | 0, _ => none
  | fuel + 1, s =>
    match parseVal fuel s with
    | none => none
    | some (v, r) =>
      match skipWs r with
      | ',' :: r2 => (parseItems fuel r2).map (fun p => (v :: p.1, p.2))
      | ']' :: r2 => some ([v], r2)
      | _ => none

/-- Comma-separated `"key": value` object members up to the closing brace. -/
def parseFields : Nat → List Char → Option (List (List Char × Json) × List Char)
  | 0, _ => none
  | fuel + 1, s =>
    match skipWs s with
    | '"' :: r =>
      (match parseStringBody fuel r with
       | none => none
       | some (k, r1) =>
         match skipWs r1 with
         | ':' :: r2 =>
           (match parseVal fuel r2 with
            | none => none
            | some (v, r3) =>
              match skipWs r3 with
              | ',' :: r4 => (parseFields fuel r4).map (fun p => ((k, v) :: p.1, p.2))
              | '\x7d' :: r4 => some ([(k, v)], r4)
              | _ => none)
         | _ => none)
    | _ => none

end

/-- Full `JSON.parse`: the whole input must be one JSON value plus whitespace. -/
def Json.parse (s : List Char) : Option Json :=
  match parseVal (2 * s.length + 2) s with
  | some (j, r) => if skipWs r = [] then some j else none
  | none => none

/-- JS property read `obj[key]` on a parsed JSON value: objects yield the last
    binding of the key (later duplicate keys win, as in `JSON.parse`); every
    other value yields no property. -/
def Json.getField : Json → List Char → Option Json
  | .obj fs, k => fs.foldl (fun acc f => if f.1 = k then some f.2 else acc) none
  | _, _ => none

/-- JS truthiness of a parsed JSON value. -/
def Json.isTruthy : Json → Bool
  | .null => false
  | .bool b => b
  | .num m _ => m != 0
  | .str s => !s.isEmpty
  | .arr _ => true
  | .obj _ => true

/-- JS `event.content || []` (an absent or falsy `content` becomes `[]`). -/
def contentOrEmptyList (c : Option Json) : Json :=
  match c with
  | some v => if v.isTruthy then v else .arr []
  | none => .arr []

/-- Typed events produced by the decoder; each carries the raw JSON `content`
    payload handed to the corresponding callback. -/
inductive StreamEvent where
  | token (content : Option Json)
  | sources (content : Json)
  | done
  | error (content : Option Json)

def dataMarker : List Char := ['d', 'a', 't', 'a', ':', ' ']

def typeKey : List Char := ['t', 'y', 'p', 'e']

def contentKey : List Char := ['c', 'o', 'n', 't', 'e', 'n', 't']

def tokenLit : List Char := ['t', 'o', 'k', 'e', 'n']

def sourcesLit : List Char := ['s', 'o', 'u', 'r', 'c', 'e', 's']

def doneLit : List Char := ['d', 'o', 'n', 'e']

def errorLit : List Char := ['e', 'r', 'r', 'o', 'r']

/-- Processing of one complete frame in `streamChat`: trim it, require the
    `data: ` marker, `JSON.parse` the remainder (parse failure is swallowed by
    the `try`/`catch`), and dispatch on the `type` field; any unrecognized
    `type` produces no event. -/
def parseFrame (line : List Char) : Option StreamEvent :=
  let trimmed := trimChars line
  if dataMarker.isPrefixOf trimmed then
    match Json.parse (trimmed.drop 6) with
    | none => none
    | some ev =>
      match ev.getField typeKey with
      | some (.str t) =>
        if t = tokenLit then some (.token (ev.getField contentKey))
        else if t = sourcesLit then some (.sources (contentOrEmptyList (ev.getField contentKey)))
        else if t = doneLit then some .done
        else if t = errorLit then some (.error (ev.getField contentKey))
        else none
      | _ => none
  else none

/-- The ordered event sequence produced from a list of complete segments. -/
def eventsOfSegments (segs : List (List Char)) : List StreamEvent :=
  segs.filterMap parseFrame

/-- The ordered event sequence the decoder emits for a list of byte chunks. -/
def decodeEvents (chunks : List (List Char)) : List StreamEvent :=
  eventsOfSegments (decodeSegments chunks)

example :
    parseFrame ("data: \x7b\"type\":\"token\",\"content\":\"Hello\"\x7d".toList) =
      some (.token (some (.str ['H', 'e', 'l', 'l', 'o']))) := by rfl

example :
    decodeEvents ["data: \x7b\"type\":\"token\",\"content\":\"Hel".toList, "lo\"\x7d\n\n".toList] =
      [.token (some (.str ['H', 'e', 'l', 'l', 'o']))] := by rfl

example : decodeEvents ["data: \x7b\"type\":\"token\",\"content\":\"Hel".toList] = [] := by rfl

/-! The `Chat` component: message list, mutable refs and state, and the
    event-driven transitions (typewriter tick, stream callbacks, submit,
    session switch, unmount cleanup). -/

inductive Role where
  | user
  | assistant
deriving DecidableEq

inductive PageRef where
  | num (n : Int)
  | label (s : List Char)
deriving DecidableEq

structure Source where
  filename : List Char
  page : PageRef
  snippet : Option (List Char)
deriving DecidableEq

structure ChatMessage where
  role : Role
  content : List Char
  sources : Option (List Source)
deriving DecidableEq

/-- The `appendAssistantChunk` helper: append `chunk` to the content of the last message
    when it is an assistant message; otherwise return the list unchanged. -/
def appendAssistantChunk (chunk : List Char) (prev : List ChatMessage) : List ChatMessage :=
  match prev.getLast? with
  | some last =>
    if last.role = .assistant then
      prev.dropLast ++ [{ last with content := last.content ++ chunk }]
    else prev
  | none => prev

/-- Updater of the `onSources` callback: replace the sources of the last
    message when it is an assistant message. -/
def applySources (srcs : List Source) (prev : List ChatMessage) : List ChatMessage :=
  match prev.getLast? with
  | some last =>
    if last.role = .assistant then
      prev.dropLast ++ [{ last with sources := some srcs }]
    else prev
  | none => prev

/-- The localized error notice `Ошибка: ${error}`. -/
def errNotice (msg : List Char) : List Char := "Ошибка: ".toList ++ msg

/-- Updater of the `onError` callback: overwrite the content of the last
    message with the error notice when it is an assistant message. -/
def applyErrorNotice (msg : List Char) (prev : List ChatMessage) : List ChatMessage :=
  match prev.getLast? with
  | some last =>
    if last.role = .assistant then
      prev.dropLast ++ [{ last with content := errNotice msg }]
    else prev
  | none => prev

def CHARS_PER_TICK : Nat := 1

/-- The mutable state of one `Chat` component instance: the input field, the
    loading flag, the token queue / stream-done / typing-timer refs, the
    abort controller (identified by a number, with the set of controllers
    whose signal has been aborted), and the message list the callbacks
    mutate. -/
structure ChatState where
  input : List Char
  isLoading : Bool
  queue : List Char
  streamDone : Bool
  timerOn : Bool
  current : Option Nat
  nextId : Nat
  abortedIds : List Nat
  messages : List ChatMessage
deriving DecidableEq

/-- The `stopTypingTimer` helper. -/
def stopTypingTimer (s : ChatState) : ChatState := { s with timerOn := false }

/-- The `finalizeIfStreamFinished` helper: once the stream signalled completion and the
    queue is drained, stop the timer, clear loading, drop the controller. -/
def finalizeIfStreamFinished (s : ChatState) : ChatState :=
  if s.streamDone ∧ s.queue = [] then
    { s with timerOn := false, isLoading := false, current := none }
  else s

/-- The `startTypewriter` helper: a no-op when the timer is already running. -/
def startTypewriter (s : ChatState) : ChatState := { s with timerOn := true }

/-- One timer tick of the typewriter (fires only while the timer exists):
    on an empty queue just try to finalize; otherwise reveal
    `CHARS_PER_TICK` characters and then try to finalize. -/
def tickTimer (s : ChatState) : ChatState :=
  if s.timerOn then
    if s.queue = [] then finalizeIfStreamFinished s
    else
      finalizeIfStreamFinished
        { s with
            queue := s.queue.drop CHARS_PER_TICK,
            messages := appendAssistantChunk (s.queue.take CHARS_PER_TICK) s.messages }
  else s

/-- The `onToken` callback of the stream owned by controller `cid`. -/
def onToken (cid : Nat) (tok : List Char) (s : ChatState) : ChatState :=
  if cid ∈ s.abortedIds then s
  else startTypewriter { s with queue := s.queue ++ tok }

/-- The `onSources` callback of the stream owned by controller `cid`. -/
def onSources (cid : Nat) (srcs : List Source) (s : ChatState) : ChatState :=
  if cid ∈ s.abortedIds then s
  else { s with messages := applySources srcs s.messages }

/-- The `onDone` callback of the stream owned by controller `cid`. -/
def onDone (cid : Nat) (s : ChatState) : ChatState :=
  if cid ∈ s.abortedIds then s
  else finalizeIfStreamFinished { s with streamDone := true }

/-- The `onError` callback of the stream owned by controller `cid`. -/
def onError (cid : Nat) (msg : List Char) (s : ChatState) : ChatState :=
  if cid ∈ s.abortedIds then s
  else
    { s with
        timerOn := false, queue := [], streamDone := false,
        messages := applyErrorNotice msg s.messages,
        isLoading := false, current := none }

/-- The `handleSubmit` handler: reject when the trimmed question is empty or a submission
    is pending; otherwise install a fresh controller, reset the queue and
    timer, append the user message and the empty assistant placeholder,
    clear the input and set loading. -/
def handleSubmit (s : ChatState) : ChatState :=
  let question := trimChars s.input
  if question = [] ∨ s.isLoading then s
  else
    { s with
        current := some s.nextId, nextId := s.nextId + 1,
        queue := [], streamDone := false, timerOn := false,
        messages := s.messages ++
          [{ role := .user, content := question, sources := none },
           { role := .assistant, content := [], sources := some [] }],
        input := [], isLoading := true }

/-- Whether `handleSubmit` reaches the `streamChat` network call exactly when the
    guard passes. -/
def submitStartsNetwork (s : ChatState) : Bool :=
  !(trimChars s.input).isEmpty && !s.isLoading

/-- Abort of the current controller, as in `requestControllerRef.current?.abort()`. -/
def abortCurrent (s : ChatState) : List Nat :=
  match s.current with
  | some cid => cid :: s.abortedIds
  | none => s.abortedIds

/-- The `useEffect` on `chatId`: stop the timer, clear the queue and the
    stream-done flag, abort and drop the controller, clear loading and the
    input; the component now shows the messages of the new session. -/
def switchChat (newMessages : List ChatMessage) (s : ChatState) : ChatState :=
  { s with
      timerOn := false, queue := [], streamDone := false,
      abortedIds := abortCurrent s, current := none,
      isLoading := false, input := [], messages := newMessages }

/-- The unmount cleanup effect: stop the timer, abort and drop the
    controller. -/
def unmountCleanup (s : ChatState) : ChatState :=
  { s with timerOn := false, abortedIds := abortCurrent s, current := none }

/-- The events that can interleave on the single-threaded loop. -/
inductive Action where
  | tick
  | token (cid : Nat) (tok : List Char)
  | sources (cid : Nat) (srcs : List Source)
  | done (cid : Nat)
  | error (cid : Nat) (msg : List Char)
  | submit
  | switchChat (newMessages : List ChatMessage)
  | unmount
deriving DecidableEq

def applyAction (a : Action) (s : ChatState) : ChatState :=
  match a with
  | .tick => tickTimer s
  | .token cid tok => onToken cid tok s
  | .sources cid srcs => onSources cid srcs s
  | .done cid => onDone cid s
  | .error cid msg => onError cid msg s
  | .submit => handleSubmit s
  | .switchChat msgs => switchChat msgs s
  | .unmount => unmountCleanup s

def applyTrace (tr : List Action) (s : ChatState) : ChatState :=
  tr.foldl (fun st a => applyAction a st) s

/-! The upload extension check from `FileUpload.tsx`. -/

/-- JS `name.split(".")`. -/
def splitOnDot : List Char → List (List Char)
  | [] => [[]]
  | c :: rest =>
    if c = '.' then [] :: splitOnDot rest
    else
      match splitOnDot rest with
      | [] => [[c]]
      | s :: ss => (c :: s) :: ss

def toLowerChars (l : List Char) : List Char := l.map Char.toLower

def allowedExtensions : List (List Char) :=
  [['.', 'p', 'd', 'f'], ['.', 'd', 'o', 'c', 'x'], ['.', 'd', 'o', 'c'], ['.', 't', 'x', 't']]

/-- The computed extension `"." + file.name.split(".").pop()?.toLowerCase()`. -/
def uploadExt (name : List Char) : List Char :=
  '.' :: toLowerChars ((splitOnDot name).getLastD [])

inductive UploadOutcome where
  | rejectedUnsupported
  | networkUpload
deriving DecidableEq

/-- The `handleUpload` handler: reject client-side on a disallowed extension, otherwise
    perform the network upload. -/
def handleUpload (name : List Char) : UploadOutcome :=
  if uploadExt name ∈ allowedExtensions then .networkUpload else .rejectedUnsupported

/-- Modelled from the spec: the file extension in the usual sense — the
    lowercased text after the last dot when the name contains a dot, and
    nothing for a dot-free name ("allowed extensions: pdf, docx, doc, txt —
    case-insensitive"). -/
def specExtension (name : List Char) : Option (List Char) :=
  if (splitOnDot name).length ≤ 1 then none
  else some (toLowerChars ((splitOnDot name).getLastD []))

def allowedBareExts : List (List Char) :=
  [['p', 'd', 'f'], ['d', 'o', 'c', 'x'], ['d', 'o', 'c'], ['t', 'x', 't']]

/-! The session list operations from `App.tsx`. -/

structure ChatSession where
  id : List Char
  title : List Char
  messages : List ChatMessage
  createdAt : List Char
  updatedAt : List Char
deriving DecidableEq

/-- The `useState` initializer for `chats`: `none` models absent storage,
    `some none` a raw value on which `JSON.parse` throws, and
    `some (some parsed)` a successfully parsed session array. -/
def initChats (stored : Option (Option (List ChatSession))) (fresh : ChatSession) :
    List ChatSession :=
  match stored with
  | none => [fresh]
  | some none => [fresh]
  | some (some parsed) => if 0 < parsed.length then parsed else [fresh]

/-- The `removeChat` handler: returns the new session list and the new active chat id. -/
def removeChat (chatId : List Char) (active : List Char) (fresh : ChatSession)
    (prev : List ChatSession) : List ChatSession × List Char :=
  if prev.length ≤ 1 then ([fresh], fresh.id)
  else
    let filtered := prev.filter (fun c => c.id ≠ chatId)
    (filtered,
      if active = chatId ∧ 0 < filtered.length then (filtered.headD fresh).id else active)

/-- The `createNewChat` handler prepends a fresh session. -/
def createNewChat (fresh : ChatSession) (prev : List ChatSession) : List ChatSession :=
  fresh :: prev

/-- The `updateActiveChatMessages` handler maps over the sessions, rewriting only the
    active one. -/
def updateActiveChatMessages (chatId : List Char) (updater : List ChatMessage → List ChatMessage)
    (title : List ChatMessage → List Char) (now : List Char)
    (prev : List ChatSession) : List ChatSession :=
  prev.map (fun chat =>
    if chat.id = chatId then
      { chat with
          messages := updater chat.messages,
          title := title (updater chat.messages),
          updatedAt := now }
    else chat)

/-! Helper lemmas. -/

theorem getLast?_decomp {α : Type} : ∀ (l : List α) (a : α),
    l.getLast? = some a → l = l.dropLast ++ [a]
  | [], a => by simp
  | [x], a => by
      intro h
      have hx : x = a := by simpa using h
      simp [hx]
  | x :: y :: xs, a => by
      intro h
      rw [List.getLast?_cons_cons] at h
      have IH := getLast?_decomp (y :: xs) a h
      rw [dropLast_cons₂, List.cons_append, ← IH]

/-- The shared shape of the three message-list updaters. -/
def updateLastAssistant (f : ChatMessage → ChatMessage) (prev : List ChatMessage) :
    List ChatMessage :=
  match prev.getLast? with
  | some last => if last.role = .assistant then prev.dropLast ++ [f last] else prev
  | none => prev

theorem appendAssistantChunk_eq (chunk : List Char) (prev : List ChatMessage) :
    appendAssistantChunk chunk prev
      = updateLastAssistant (fun m => { m with content := m.content ++ chunk }) prev := rfl

theorem applySources_eq (srcs : List Source) (prev : List ChatMessage) :
    applySources srcs prev
      = updateLastAssistant (fun m => { m with sources := some srcs }) prev := rfl

theorem applyErrorNotice_eq (msg : List Char) (prev : List ChatMessage) :
    applyErrorNotice msg prev
      = updateLastAssistant (fun m => { m with content := errNotice msg }) prev := rfl

theorem updateLastAssistant_spec (f : ChatMessage → ChatMessage) (prev : List ChatMessage) :
    (updateLastAssistant f prev).length = prev.length
    ∧ (updateLastAssistant f prev).dropLast = prev.dropLast
    ∧ (∀ last, prev.getLast? = some last → last.role = .assistant →
        updateLastAssistant f prev = prev.dropLast ++ [f last])
    ∧ (∀ last, prev.getLast? = some last → ¬last.role = .assistant →
        updateLastAssistant f prev = prev)
    ∧ (prev.getLast? = none → updateLastAssistant f prev = prev) := by
  cases hl : prev.getLast? with
  | none =>
    simp [updateLastAssistant, hl]
  | some last =>
    have hdecomp := getLast?_decomp prev last hl
    by_cases hrole : last.role = .assistant
    · refine ⟨?_, ?_, ?_, ?_, ?_⟩
      · simp only [updateLastAssistant, hl, if_pos hrole]
        conv_rhs => rw [hdecomp]
        simp
      · simp only [updateLastAssistant, hl, if_pos hrole]
        rw [List.dropLast_concat]
      · intro l2 hl2 _
        injection hl2 with he
        subst he
        simp only [updateLastAssistant, hl, if_pos hrole]
      · intro l2 hl2 hr2
        injection hl2 with he
        subst he
        exact absurd hrole hr2
      · intro h2
        cases h2
    · have heq : updateLastAssistant f prev = prev := by
        simp only [updateLastAssistant, hl, if_neg hrole]
      refine ⟨by rw [heq], by rw [heq], ?_, fun _ _ _ => heq, fun _ => heq⟩
      intro l2 hl2 hr2
      injection hl2 with he
      subst he
      exact absurd hr2 hrole

theorem finalize_messages (s : ChatState) :
    (finalizeIfStreamFinished s).messages = s.messages := by
  unfold finalizeIfStreamFinished
  split <;> rfl

theorem finalize_queue (s : ChatState) :
    (finalizeIfStreamFinished s).queue = s.queue := by
  unfold finalizeIfStreamFinished
  split <;> rfl

theorem finalize_abortedIds (s : ChatState) :
    (finalizeIfStreamFinished s).abortedIds = s.abortedIds := by
  unfold finalizeIfStreamFinished
  split <;> rfl

/-- C7: a submission whose question is empty after trimming, or made while a
    submission is pending, has no observable effect: the state (in particular
    the message list) is unchanged and the network call is not reached;
    the rejection is the synchronous early return before `streamChat`. -/
theorem c7_submit_rejected (s : ChatState)
    (h : trimChars s.input = [] ∨ s.isLoading = true) :
    applyAction .submit s = s ∧ submitStartsNetwork s = false := by
  constructor
  · show handleSubmit s = s
    unfold handleSubmit
    rcases h with h | h
    · rw [if_pos (Or.inl h)]
    · rw [if_pos (Or.inr (by simp [h]))]
  · unfold submitStartsNetwork
    rcases h with h | h
    · simp [h]
    · simp [h]

theorem c7_witness :
    (trimChars ("  ".toList) = [] ∨ (false : Bool) = true)
    ∧ applyAction .submit
        ⟨"  ".toList, false, [], false, false, none, 0, [], []⟩
        = ⟨"  ".toList, false, [], false, false, none, 0, [], []⟩
    ∧ submitStartsNetwork ⟨"  ".toList, false, [], false, false, none, 0, [], []⟩ = false := by
  refine ⟨Or.inl (by decide), ?_⟩
  exact c7_submit_rejected _ (Or.inl (by decide))

/-- C3: an `Error(message)` event on a non-cancelled stream, in any state
    whose last message is an assistant message (in particular after a partial
    reveal), stops the typewriter timer, discards the queued text, clears
    loading, and leaves the assistant content equal to exactly the localized
    error notice. -/
theorem c3_error_replaces_content (s : ChatState) (cid : Nat) (msg : List Char)
    (last : ChatMessage)
    (hab : cid ∉ s.abortedIds)
    (hl : s.messages.getLast? = some last) (hrole : last.role = .assistant) :
    (applyAction (.error cid msg) s).timerOn = false
    ∧ (applyAction (.error cid msg) s).queue = []
    ∧ (applyAction (.error cid msg) s).isLoading = false
    ∧ (applyAction (.error cid msg) s).messages
        = s.messages.dropLast ++ [{ last with content := errNotice msg }] := by
  have heq : applyAction (.error cid msg) s
      = { s with
            timerOn := false, queue := [], streamDone := false,
            messages := applyErrorNotice msg s.messages,
            isLoading := false, current := none } := by
    show onError cid msg s = _
    unfold onError
    rw [if_neg hab]
  rw [heq]
  refine ⟨rfl, rfl, rfl, ?_⟩
  show applyErrorNotice msg s.messages = _
  rw [applyErrorNotice_eq]
  exact (updateLastAssistant_spec _ s.messages).2.2.1 last hl hrole

theorem c3_witness :
    (0 : Nat) ∉ ([] : List Nat)
    ∧ [⟨Role.user, ['h', 'i'], none⟩,
        (⟨Role.assistant, ['p', 'a', 'r'], some []⟩ : ChatMessage)].getLast?
        = some ⟨Role.assistant, ['p', 'a', 'r'], some []⟩
    ∧ (applyAction (.error 0 ['x'])
        ⟨[], true, ['t'], false, true, some 0, 1, [],
         [⟨Role.user, ['h', 'i'], none⟩, ⟨Role.assistant, ['p', 'a', 'r'], some []⟩]⟩).messages
        = [⟨Role.user, ['h', 'i'], none⟩,
           ⟨Role.assistant, errNotice ['x'], some []⟩] := by
  refine ⟨by decide, by decide, ?_⟩
  have h := c3_error_replaces_content
    ⟨[], true, ['t'], false, true, some 0, 1, [],
     [⟨Role.user, ['h', 'i'], none⟩, ⟨Role.assistant, ['p', 'a', 'r'], some []⟩]⟩
    0 ['x'] ⟨Role.assistant, ['p', 'a', 'r'], some []⟩
    (by decide) (by decide) (by decide)
  exact h.2.2.2

/-- C9: each streaming message-list updater (token append, sources
    replacement, error overwrite) preserves the list length, leaves every
    element but the last unchanged, touches the last element only when it is
    an assistant message (changing only the content, only the sources, or
    only the content respectively), and returns the list unchanged when the
    last element is not an assistant message or the list is empty. -/
theorem c9_updaters_frame (chunk msg : List Char) (srcs : List Source)
    (prev : List ChatMessage) :
    (appendAssistantChunk chunk prev).length = prev.length
    ∧ (applySources srcs prev).length = prev.length
    ∧ (applyErrorNotice msg prev).length = prev.length
    ∧ (appendAssistantChunk chunk prev).dropLast = prev.dropLast
    ∧ (applySources srcs prev).dropLast = prev.dropLast
    ∧ (applyErrorNotice msg prev).dropLast = prev.dropLast
    ∧ (∀ last, prev.getLast? = some last → last.role = .assistant →
        appendAssistantChunk chunk prev
            = prev.dropLast ++ [{ last with content := last.content ++ chunk }]
        ∧ applySources srcs prev = prev.dropLast ++ [{ last with sources := some srcs }]
        ∧ applyErrorNotice msg prev = prev.dropLast ++ [{ last with content := errNotice msg }])
    ∧ (∀ last, prev.getLast? = some last → ¬last.role = .assistant →
        appendAssistantChunk chunk prev = prev
        ∧ applySources srcs prev = prev
        ∧ applyErrorNotice msg prev = prev)
    ∧ (prev = [] →
        appendAssistantChunk chunk prev = prev
        ∧ applySources srcs prev = prev
        ∧ applyErrorNotice msg prev = prev) := by
  have h1 := updateLastAssistant_spec (fun m => { m with content := m.content ++ chunk }) prev
  have h2 := updateLastAssistant_spec (fun m => { m with sources := some srcs }) prev
  have h3 := updateLastAssistant_spec (fun m => { m with content := errNotice msg }) prev
  rw [← appendAssistantChunk_eq] at h1
  rw [← applySources_eq] at h2
  rw [← applyErrorNotice_eq] at h3
  refine ⟨h1.1, h2.1, h3.1, h1.2.1, h2.2.1, h3.2.1, ?_, ?_, ?_⟩
  · exact fun last hl hr =>
      ⟨h1.2.2.1 last hl hr, h2.2.2.1 last hl hr, h3.2.2.1 last hl hr⟩
  · exact fun last hl hr =>
      ⟨h1.2.2.2.1 last hl hr, h2.2.2.2.1 last hl hr, h3.2.2.2.1 last hl hr⟩
  · intro hnil
    subst hnil
    exact ⟨h1.2.2.2.2 rfl, h2.2.2.2.2 rfl, h3.2.2.2.2 rfl⟩

theorem c9_witness :
    ([⟨Role.user, ['q'], none⟩, (⟨Role.assistant, ['a'], none⟩ : ChatMessage)].getLast?
        = some ⟨Role.assistant, ['a'], none⟩)
    ∧ appendAssistantChunk ['b'] [⟨Role.user, ['q'], none⟩, ⟨Role.assistant, ['a'], none⟩]
        = [⟨Role.user, ['q'], none⟩, ⟨Role.assistant, ['a', 'b'], none⟩]
    ∧ applySources [] [⟨Role.user, ['q'], none⟩, ⟨Role.assistant, ['a'], none⟩]
        = [⟨Role.user, ['q'], none⟩, ⟨Role.assistant, ['a'], some []⟩] := by
  refine ⟨by decide, ?_, ?_⟩
  · exact ((c9_updaters_frame ['b'] [] [] _).2.2.2.2.2.2.1
      ⟨Role.assistant, ['a'], none⟩ (by decide) (by decide)).1
  · exact ((c9_updaters_frame ['b'] [] [] _).2.2.2.2.2.2.1
      ⟨Role.assistant, ['a'], none⟩ (by decide) (by decide)).2.1

/-- C6: a `Done` event while the queue is still non-empty only marks the
    stream finished; when the queue is already drained it also stops the
    timer, clears loading and drops the controller; no transition ever clears
    loading while leaving a non-empty queue; an empty-queue tick before
    completion is a strict no-op (the timer keeps running); and a tick that
    drains the last queued character after completion clears loading and
    stops the timer. -/
theorem c6_loading_cleared_on_drain :
    (∀ (s : ChatState) (cid : Nat), cid ∉ s.abortedIds → s.queue ≠ [] →
        applyAction (.done cid) s = { s with streamDone := true })
    ∧ (∀ (s : ChatState) (cid : Nat), cid ∉ s.abortedIds → s.queue = [] →
        applyAction (.done cid) s
          = { s with streamDone := true, timerOn := false, isLoading := false,
                     current := none })
    ∧ (∀ (s : ChatState) (a : Action), s.isLoading = true →
        (applyAction a s).isLoading = false → (applyAction a s).queue = [])
    ∧ (∀ s : ChatState, s.timerOn = true → s.queue = [] → s.streamDone = false →
        applyAction .tick s = s)
    ∧ (∀ s : ChatState, s.timerOn = true → s.streamDone = true → s.queue.length = 1 →
        (applyAction .tick s).isLoading = false ∧ (applyAction .tick s).timerOn = false) := by
  refine ⟨?_, ?_, ?_, ?_, ?_⟩
  · intro s cid hab hq
    show onDone cid s = _
    simp only [onDone, if_neg hab, finalizeIfStreamFinished]
    rw [if_neg (by simp [hq])]
  · intro s cid hab hq
    show onDone cid s = _
    simp only [onDone, if_neg hab, finalizeIfStreamFinished]
    rw [if_pos (by simp [hq])]
  · intro s a h1 h2
    cases a <;>
      simp only [applyAction, tickTimer, onToken, onSources, onDone, onError,
        handleSubmit, switchChat, unmountCleanup, startTypewriter,
        finalizeIfStreamFinished] at h2 ⊢ <;>
      first
        | (split_ifs at h2 ⊢ <;> simp_all)
        | simp_all
  · intro s ht hq hd
    show tickTimer s = s
    simp [tickTimer, ht, hq, finalizeIfStreamFinished, hd]
  · intro s ht hd hq1
    obtain ⟨q, hq⟩ : ∃ q, s.queue = [q] := by
      cases hqe : s.queue with
      | nil => rw [hqe] at hq1; simp at hq1
      | cons q qs =>
        rw [hqe] at hq1
        simp at hq1
        exact ⟨q, by simp [hq1]⟩
    constructor <;>
      simp [applyAction, tickTimer, ht, hq, CHARS_PER_TICK, finalizeIfStreamFinished, hd]

theorem c6_witness :
    ((0 : Nat) ∉ ([] : List Nat)) ∧ (['x'] : List Char) ≠ []
    ∧ applyAction (.done 0) ⟨[], true, ['x'], false, true, some 0, 1, [], []⟩
        = ⟨[], true, ['x'], true, true, some 0, 1, [], []⟩ := by
  refine ⟨by decide, by decide, ?_⟩
  exact c6_loading_cleared_on_drain.1
    ⟨[], true, ['x'], false, true, some 0, 1, [], []⟩ 0 (by decide) (by decide)

/-- Whether an action is one of the four stream callbacks owned by
    controller `cid`. -/
def isCallbackOf (cid : Nat) : Action → Bool
  | .token c _ => c == cid
  | .sources c _ => c == cid
  | .done c => c == cid
  | .error c _ => c == cid
  | _ => false

theorem callback_aborted_eq (a : Action) (cid : Nat) (s : ChatState)
    (hc : isCallbackOf cid a = true) (hab : cid ∈ s.abortedIds) : applyAction a s = s := by
  cases a with
  | token c t =>
    have he : c = cid := by simpa [isCallbackOf] using hc
    subst he
    simp [applyAction, onToken, hab]
  | sources c srcs =>
    have he : c = cid := by simpa [isCallbackOf] using hc
    subst he
    simp [applyAction, onSources, hab]
  | done c =>
    have he : c = cid := by simpa [isCallbackOf] using hc
    subst he
    simp [applyAction, onDone, hab]
  | error c msg =>
    have he : c = cid := by simpa [isCallbackOf] using hc
    subst he
    simp [applyAction, onError, hab]
  | tick => simp [isCallbackOf] at hc
  | submit => simp [isCallbackOf] at hc
  | switchChat m => simp [isCallbackOf] at hc
  | unmount => simp [isCallbackOf] at hc

theorem sub_abortCurrent (s : ChatState) : s.abortedIds ⊆ abortCurrent s := by
  unfold abortCurrent
  cases s.current with
  | none => exact fun x hx => hx
  | some c => exact fun x hx => List.mem_cons_of_mem c hx

theorem abortedIds_mono (a : Action) (s : ChatState) :
    s.abortedIds ⊆ (applyAction a s).abortedIds := by
  cases a with
  | tick =>
    show s.abortedIds ⊆ (tickTimer s).abortedIds
    unfold tickTimer
    split_ifs <;> simp [finalize_abortedIds]
  | token c t =>
    show s.abortedIds ⊆ (onToken c t s).abortedIds
    unfold onToken startTypewriter
    split_ifs <;> exact fun x hx => hx
  | sources c srcs =>
    show s.abortedIds ⊆ (onSources c srcs s).abortedIds
    unfold onSources
    split_ifs <;> exact fun x hx => hx
  | done c =>
    show s.abortedIds ⊆ (onDone c s).abortedIds
    unfold onDone
    split_ifs
    · exact fun x hx => hx
    · rw [finalize_abortedIds]
      exact fun x hx => hx
  | error c msg =>
    show s.abortedIds ⊆ (onError c msg s).abortedIds
    unfold onError
    split_ifs <;> exact fun x hx => hx
  | submit =>
    show s.abortedIds ⊆ (handleSubmit s).abortedIds
    simp only [handleSubmit]
    split_ifs <;> exact fun x hx => hx
  | switchChat m =>
    show s.abortedIds ⊆ (switchChat m s).abortedIds
    exact sub_abortCurrent s
  | unmount =>
    show s.abortedIds ⊆ (unmountCleanup s).abortedIds
    exact sub_abortCurrent s

/-- C5: once the signal of a controller is aborted (as done by a session switch or
    unmount on the current stream), its four callbacks never mutate shared
    state again: any trace yields the same state as the trace with the
    callbacks of that stream removed, so no token, sources, done or error from the
    cancelled stream reaches the message list or the queue. -/
theorem c5_cancelled_stream_inert :
    (∀ (s : ChatState) (cid : Nat), cid ∈ s.abortedIds → ∀ tr : List Action,
        applyTrace tr s = applyTrace (tr.filter fun a => !isCallbackOf cid a) s)
    ∧ (∀ (s : ChatState) (newMsgs : List ChatMessage) (cid : Nat), s.current = some cid →
        cid ∈ (applyAction (.switchChat newMsgs) s).abortedIds
        ∧ cid ∈ (applyAction .unmount s).abortedIds) := by
  constructor
  · intro s cid hab tr
    induction tr generalizing s with
    | nil => rfl
    | cons a tr ih =>
      by_cases hc : isCallbackOf cid a = true
      · have hfilter : (a :: tr).filter (fun a => !isCallbackOf cid a)
            = tr.filter (fun a => !isCallbackOf cid a) := by
          simp [List.filter_cons, hc]
        rw [show applyTrace (a :: tr) s = applyTrace tr (applyAction a s) from rfl,
          callback_aborted_eq a cid s hc hab, hfilter]
        exact ih s hab
      · have hc2 : isCallbackOf cid a = false := by
          revert hc
          cases isCallbackOf cid a <;> simp
        have hfilter : (a :: tr).filter (fun a => !isCallbackOf cid a)
            = a :: tr.filter (fun a => !isCallbackOf cid a) := by
          simp [List.filter_cons, hc2]
        rw [show applyTrace (a :: tr) s = applyTrace tr (applyAction a s) from rfl, hfilter]
        exact ih (applyAction a s) (abortedIds_mono a s hab)
  · intro s m cid hcur
    constructor
    · show cid ∈ (switchChat m s).abortedIds
      simp [switchChat, abortCurrent, hcur]
    · show cid ∈ (unmountCleanup s).abortedIds
      simp [unmountCleanup, abortCurrent, hcur]

theorem c5_witness :
    ((0 : Nat) ∈ [0])
    ∧ applyTrace [.token 0 ['x'], .tick, .error 0 ['e']]
        ⟨[], false, [], false, false, none, 1, [0],
         [⟨Role.assistant, ['a'], none⟩]⟩
        = applyTrace
            (([.token 0 ['x'], .tick, .error 0 ['e']] :
                List Action).filter fun a => !isCallbackOf 0 a)
            ⟨[], false, [], false, false, none, 1, [0],
             [⟨Role.assistant, ['a'], none⟩]⟩ := by
  refine ⟨by decide, ?_⟩
  exact c5_cancelled_stream_inert.1 _ 0 (by decide) _

/-- Whether an action belongs to the normal run of one stream: a typewriter tick,
    or a token/done callback of controller `cid`. -/
def isStreamAct (cid : Nat) : Action → Bool
  | .tick => true
  | .token c _ => c == cid
  | .done c => c == cid
  | _ => false

/-- The token payloads delivered by a trace, in arrival order. -/
def tokensOf (tr : List Action) : List (List Char) :=
  tr.filterMap fun a =>
    match a with
    | .token _ t => some t
    | _ => none

/-- Invariant of a non-cancelled stream under ticks, token arrivals and done:
    the prefix of the messages stays fixed, the last (assistant) message has
    grown by some revealed text `rev`, and `rev ++ queue` equals the old queue
    plus the concatenation of all delivered tokens, in order. -/
theorem stream_inv (tr : List Action) :
    ∀ (s : ChatState) (cid : Nat) (D : List ChatMessage) (last : ChatMessage),
    (∀ a ∈ tr, isStreamAct cid a = true) →
    cid ∉ s.abortedIds →
    s.messages = D ++ [last] → last.role = .assistant →
    ∃ rev,
      (applyTrace tr s).messages = D ++ [{ last with content := last.content ++ rev }]
      ∧ rev ++ (applyTrace tr s).queue = s.queue ++ (tokensOf tr).flatten
      ∧ cid ∉ (applyTrace tr s).abortedIds := by
  induction tr with
  | nil =>
    intro s cid D last _ hab hm _
    refine ⟨[], ?_, by simp [tokensOf, applyTrace], hab⟩
    show s.messages = _
    simp only [List.append_nil]
    exact hm
  | cons a tr ih =>
    intro s cid D last hshape hab hm hrole
    have ha := hshape a (List.mem_cons_self a tr)
    have htr : ∀ b ∈ tr, isStreamAct cid b = true :=
      fun b hb => hshape b (List.mem_cons_of_mem a hb)
    rw [show applyTrace (a :: tr) s = applyTrace tr (applyAction a s) from rfl]
    cases a with
    | tick =>
      by_cases ht : s.timerOn = true
      · by_cases hq : s.queue = []
        · have hs : applyAction .tick s = finalizeIfStreamFinished s := by
            show tickTimer s = _
            unfold tickTimer
            rw [if_pos ht, if_pos hq]
          obtain ⟨rev, h1, h2, h3⟩ := ih (applyAction .tick s) cid D last htr
            (by rw [hs, finalize_abortedIds]; exact hab)
            (by rw [hs, finalize_messages]; exact hm) hrole
          refine ⟨rev, h1, ?_, h3⟩
          rw [h2, hs, finalize_queue]
          simp [tokensOf]
        · obtain ⟨q, qs, hqe⟩ : ∃ q qs, s.queue = q :: qs := by
            cases hqe : s.queue with
            | nil => exact absurd hqe hq
            | cons q qs => exact ⟨q, qs, rfl⟩
          have hlast : s.messages.getLast? = some last := by
            rw [hm]; exact List.getLast?_concat D
          have hmsg2 : appendAssistantChunk (s.queue.take CHARS_PER_TICK) s.messages
              = D ++ [{ last with content := last.content ++ [q] }] := by
            rw [appendAssistantChunk_eq,
              (updateLastAssistant_spec _ s.messages).2.2.1 last hlast hrole, hm,
              List.dropLast_concat, hqe]
            simp [CHARS_PER_TICK]
          have hs : applyAction .tick s
              = finalizeIfStreamFinished
                  { s with queue := s.queue.drop CHARS_PER_TICK,
                           messages := D ++ [{ last with content := last.content ++ [q] }] } := by
            show tickTimer s = _
            unfold tickTimer
            rw [if_pos ht, if_neg hq, hmsg2]
          obtain ⟨rev, h1, h2, h3⟩ := ih (applyAction .tick s) cid D
            { last with content := last.content ++ [q] } htr
            (by rw [hs, finalize_abortedIds]; exact hab)
            (by rw [hs, finalize_messages]) hrole
          refine ⟨q :: rev, ?_, ?_, h3⟩
          · rw [h1]
            simp
          · rw [show (q :: rev) ++ (applyTrace tr (applyAction .tick s)).queue
                  = q :: (rev ++ (applyTrace tr (applyAction .tick s)).queue) from rfl,
              h2, hs, finalize_queue]
            simp [hqe, tokensOf, CHARS_PER_TICK]
      · have hs : applyAction .tick s = s := by
          show tickTimer s = s
          unfold tickTimer
          rw [if_neg ht]
        rw [hs]
        obtain ⟨rev, h1, h2, h3⟩ := ih s cid D last htr hab hm hrole
        exact ⟨rev, h1, by rw [h2]; simp [tokensOf], h3⟩
    | token c t =>
      have hc : c = cid := by simpa [isStreamAct] using ha
      subst hc
      have hs : applyAction (.token c t) s
          = { s with queue := s.queue ++ t, timerOn := true } := by
        show onToken c t s = _
        unfold onToken startTypewriter
        rw [if_neg hab]
      obtain ⟨rev, h1, h2, h3⟩ := ih (applyAction (.token c t) s) c D last htr
        (by rw [hs]; exact hab) (by rw [hs]; exact hm) hrole
      refine ⟨rev, h1, ?_, h3⟩
      rw [h2, hs]
      simp [tokensOf]
    | done c =>
      have hc : c = cid := by simpa [isStreamAct] using ha
      subst hc
      have hs : applyAction (.done c) s
          = finalizeIfStreamFinished { s with streamDone := true } := by
        show onDone c s = _
        unfold onDone
        rw [if_neg hab]
      obtain ⟨rev, h1, h2, h3⟩ := ih (applyAction (.done c) s) c D last htr
        (by rw [hs, finalize_abortedIds]; exact hab)
        (by rw [hs, finalize_messages]; exact hm) hrole
      refine ⟨rev, h1, ?_, h3⟩
      rw [h2, hs, finalize_queue]
      simp [tokensOf]
    | sources c srcs => simp [isStreamAct] at ha
    | error c msg => simp [isStreamAct] at ha
    | submit => simp [isStreamAct] at ha
    | switchChat m => simp [isStreamAct] at ha
    | unmount => simp [isStreamAct] at ha

/-- C2: over any interleaving of ticks, token arrivals and the done callback
    of a non-cancelled stream, the revealed assistant content is at every
    point a prefix of the concatenation of the tokens delivered so far (FIFO,
    never reordered), and once the queue has drained the final content equals
    the whole concatenation, in arrival order. -/
theorem c2_typewriter_order (cid : Nat) (tr : List Action) (s : ChatState)
    (D : List ChatMessage) (last : ChatMessage)
    (hshape : ∀ a ∈ tr, isStreamAct cid a = true)
    (hab : cid ∉ s.abortedIds)
    (hm : s.messages = D ++ [last]) (hrole : last.role = .assistant)
    (hq0 : s.queue = [])
    (_hdone : Action.done cid ∈ tr)
    (hdrained : (applyTrace tr s).queue = []) :
    (applyTrace tr s).messages
      = D ++ [{ last with content := last.content ++ (tokensOf tr).flatten }]
    ∧ ∀ k, ∃ rev rest,
        (applyTrace (tr.take k) s).messages
          = D ++ [{ last with content := last.content ++ rev }]
        ∧ rev ++ rest = (tokensOf (tr.take k)).flatten := by
  constructor
  · obtain ⟨rev, h1, h2, _⟩ := stream_inv tr s cid D last hshape hab hm hrole
    rw [hdrained, hq0] at h2
    simp only [List.append_nil, List.nil_append] at h2
    rw [h1, h2]
  · intro k
    have hshape2 : ∀ a ∈ tr.take k, isStreamAct cid a = true :=
      fun a hma => hshape a (List.mem_of_mem_take hma)
    obtain ⟨rev, h1, h2, _⟩ := stream_inv (tr.take k) s cid D last hshape2 hab hm hrole
    rw [hq0] at h2
    simp only [List.nil_append] at h2
    exact ⟨rev, (applyTrace (tr.take k) s).queue, h1, h2⟩

theorem c2_witness :
    (∀ a ∈ ([.token 0 ['a', 'b'], .tick, .tick, .done 0, .tick] : List Action),
        isStreamAct 0 a = true)
    ∧ (applyTrace [.token 0 ['a', 'b'], .tick, .tick, .done 0, .tick]
        ⟨[], true, [], false, false, some 0, 1, [],
         [⟨Role.user, ['q'], none⟩, ⟨Role.assistant, [], some []⟩]⟩).messages
      = [⟨Role.user, ['q'], none⟩, ⟨Role.assistant, ['a', 'b'], some []⟩] := by
  refine ⟨by decide, ?_⟩
  have h := (c2_typewriter_order 0 [.token 0 ['a', 'b'], .tick, .tick, .done 0, .tick]
    ⟨[], true, [], false, false, some 0, 1, [],
     [⟨Role.user, ['q'], none⟩, ⟨Role.assistant, [], some []⟩]⟩
    [⟨Role.user, ['q'], none⟩] ⟨Role.assistant, [], some []⟩
    (by decide) (by decide) (by decide) (by decide) rfl
    (by decide) (by decide)).1
  exact h

/-- Whether a parsed frame object carries one of the four recognized `type`
    tags dispatched by the `switch` of the decoder. -/
def recognizedType (j : Json) : Bool :=
  match j.getField typeKey with
  | some (.str t) =>
    if t = tokenLit then true
    else if t = sourcesLit then true
    else if t = doneLit then true
    else if t = errorLit then true
    else false
  | _ => false

/-- C4: a frame that (after trimming) lacks the `data: ` marker, or whose
    remainder fails to parse as JSON, or whose parsed `type` is not one of
    token/sources/done/error, yields no event; the stream is not aborted:
    the frames before and after it still decode to exactly their events. -/
theorem c4_invalid_frame_dropped (line : List Char)
    (h : ¬dataMarker.isPrefixOf (trimChars line)
       ∨ Json.parse ((trimChars line).drop 6) = none
       ∨ ∀ j, Json.parse ((trimChars line).drop 6) = some j → recognizedType j = false) :
    parseFrame line = none
    ∧ ∀ pre post : List (List Char),
        eventsOfSegments (pre ++ line :: post)
          = eventsOfSegments pre ++ eventsOfSegments post := by
  have hnone : parseFrame line = none := by
    by_cases hp : dataMarker.isPrefixOf (trimChars line)
    · rcases h with h | h | h
      · exact absurd hp h
      · simp only [parseFrame, if_pos hp, h]
      · cases hj : Json.parse ((trimChars line).drop 6) with
        | none => simp only [parseFrame, if_pos hp, hj]
        | some j =>
          have hr := h j hj
          simp only [parseFrame, if_pos hp, hj]
          unfold recognizedType at hr
          cases hf : j.getField typeKey with
          | none => simp [hf]
          | some v =>
            rw [hf] at hr
            cases v with
            | str t =>
              simp only [hf]
              split_ifs at hr ⊢ <;> simp_all
            | null => simp [hf]
            | bool b => simp [hf]
            | num m e => simp [hf]
            | arr xs => simp [hf]
            | obj fs => simp [hf]
    · simp only [parseFrame, if_neg hp]
  refine ⟨hnone, ?_⟩
  intro pre post
  simp [eventsOfSegments, List.filterMap_append, List.filterMap_cons, hnone]

theorem c4_witness :
    (Json.parse ((trimChars ("data: not json".toList)).drop 6) = none
      ∨ (True ∧ True))
    ∧ parseFrame ("data: not json".toList) = none
    ∧ eventsOfSegments
        ["data: \x7b\"type\":\"done\"\x7d".toList, "data: not json".toList,
         "data: \x7b\"type\":\"token\",\"content\":\"A\"\x7d".toList]
      = eventsOfSegments ["data: \x7b\"type\":\"done\"\x7d".toList]
        ++ eventsOfSegments ["data: \x7b\"type\":\"token\",\"content\":\"A\"\x7d".toList] := by
  have h := c4_invalid_frame_dropped ("data: not json".toList) (Or.inr (Or.inl (by rfl)))
  exact ⟨Or.inl (by rfl), h.1,
    h.2 ["data: \x7b\"type\":\"done\"\x7d".toList]
        ["data: \x7b\"type\":\"token\",\"content\":\"A\"\x7d".toList]⟩

/-- C1: the event sequence of the decoder is a function of the concatenated byte
    stream alone — the emitted events are the parse of every completed
    segment of the full split, with the trailing incomplete segment retained
    in the buffer — so any two chunkings of the same logical stream produce
    the identical ordered event sequence. -/
theorem c1_chunk_boundary_independence :
    (∀ chunks : List (List Char),
        decodeEvents chunks = eventsOfSegments ((splitNN chunks.flatten).dropLast))
    ∧ (∀ cs1 cs2 : List (List Char), cs1.flatten = cs2.flatten →
        decodeEvents cs1 = decodeEvents cs2) := by
  constructor
  · intro chunks
    rw [decodeEvents, decodeSegments_canonical]
  · intro cs1 cs2 h
    rw [decodeEvents, decodeEvents, decodeSegments_canonical, decodeSegments_canonical, h]

theorem c1_witness :
    (["data: \x7b\"type\":\"token\",\"content\":\"Hel".toList, "lo\"\x7d\n\n".toList].flatten
      = ["data: \x7b\"type\":\"token\",\"content\":\"Hello\"\x7d\n\n".toList].flatten)
    ∧ decodeEvents ["data: \x7b\"type\":\"token\",\"content\":\"Hel".toList, "lo\"\x7d\n\n".toList]
      = decodeEvents ["data: \x7b\"type\":\"token\",\"content\":\"Hello\"\x7d\n\n".toList]
    ∧ decodeEvents ["data: \x7b\"type\":\"token\",\"content\":\"Hello\"\x7d\n\n".toList]
      = [.token (some (.str ['H', 'e', 'l', 'l', 'o']))]
    ∧ decodeEvents ["data: \x7b\"type\":\"token\",\"content\":\"Hel".toList] = [] := by
  refine ⟨rfl, ?_, rfl, rfl⟩
  exact c1_chunk_boundary_independence.2 _ _ rfl

theorem dotted_mem (x : List Char) :
    ('.' :: x) ∈ allowedExtensions ↔ x ∈ allowedBareExts := by
  simp [allowedExtensions, allowedBareExts]

/-- C8 counterexample: a dot-free file name that itself spells an allowed
    extension, such as `pdf`, has no extension in the usual sense (so the
    claim requires rejection), yet the handler uploads it, because
    `name.split(".").pop()` returns the whole name. -/
theorem c8_counterexample :
    ¬(∀ name : List Char,
        (∀ e, specExtension name = some e → e ∉ allowedBareExts) →
        handleUpload name = .rejectedUnsupported) := by
  intro h
  have h2 := h ['p', 'd', 'f'] (fun e he => by
    rw [show specExtension ['p', 'd', 'f'] = none from rfl] at he
    cases he)
  rw [show handleUpload ['p', 'd', 'f'] = .networkUpload from rfl] at h2
  cases h2

/-- C8 (amended): the handler uploads exactly when `"." + lowercased last
    dot-separated component` is one of `.pdf/.docx/.doc/.txt` and otherwise
    rejects with no network call; for every name that contains a dot this
    coincides with the claim (upload iff the lowercased extension after the
    last dot is pdf/docx/doc/txt), while a dot-free name is treated as if the
    whole name were the extension. -/
theorem c8_extension_check (name : List Char) :
    (handleUpload name = .networkUpload ↔ uploadExt name ∈ allowedExtensions)
    ∧ (handleUpload name = .rejectedUnsupported ↔ uploadExt name ∉ allowedExtensions)
    ∧ (2 ≤ (splitOnDot name).length →
        (handleUpload name = .networkUpload
          ↔ ∃ e, specExtension name = some e ∧ e ∈ allowedBareExts)) := by
  have hspec : 2 ≤ (splitOnDot name).length →
      specExtension name = some (toLowerChars ((splitOnDot name).getLastD [])) := by
    intro hlen
    unfold specExtension
    rw [if_neg (by omega)]
  by_cases hmem : uploadExt name ∈ allowedExtensions
  · have hup : handleUpload name = .networkUpload := by
      unfold handleUpload
      rw [if_pos hmem]
    refine ⟨⟨fun _ => hmem, fun _ => hup⟩, ⟨?_, fun hn => absurd hmem hn⟩, ?_⟩
    · intro hru
      rw [hup] at hru
      cases hru
    · intro hlen
      refine ⟨fun _ => ⟨_, hspec hlen, ?_⟩, fun _ => hup⟩
      exact (dotted_mem _).1 hmem
  · have hup : handleUpload name = .rejectedUnsupported := by
      unfold handleUpload
      rw [if_neg hmem]
    refine ⟨⟨?_, fun h => absurd h hmem⟩, ⟨fun _ => hmem, fun _ => hup⟩, ?_⟩
    · intro hnu
      rw [hup] at hnu
      cases hnu
    · intro hlen
      constructor
      · intro hnu
        rw [hup] at hnu
        cases hnu
      · rintro ⟨e, he, hmem2⟩
        rw [hspec hlen] at he
        injection he with he2
        subst he2
        exact absurd ((dotted_mem _).2 hmem2) hmem

theorem c8_witness :
    (2 ≤ (splitOnDot ("report.PDF".toList)).length)
    ∧ handleUpload ("report.PDF".toList) = .networkUpload
    ∧ handleUpload ("report.exe".toList) = .rejectedUnsupported := by
  refine ⟨by decide, ?_, ?_⟩
  · exact (c8_extension_check ("report.PDF".toList)).1.mpr (by decide)
  · exact (c8_extension_check ("report.exe".toList)).2.1.mpr (by decide)

def dupSession : ChatSession := ⟨['a'], [], [], [], []⟩

/-- C10 counterexample: with two stored sessions sharing one id, removing
    that id filters out both and leaves an empty session list, so removal
    does not always preserve nonemptiness. -/
theorem c10_counterexample :
    ¬(∀ (chatId active : List Char) (fresh : ChatSession) (prev : List ChatSession),
        1 ≤ prev.length → 1 ≤ (removeChat chatId active fresh prev).1.length) := by
  intro h
  have h2 := h ['a'] ['a'] dupSession [dupSession, dupSession] (by decide)
  have h3 : (removeChat ['a'] ['a'] dupSession [dupSession, dupSession]).1.length = 0 := by
    decide
  omega

/-- C10 (amended): initialization always yields at least one session
    (including missing, empty or unparseable storage); removing a chat from a
    list of at most one session replaces it with the fresh session and makes
    it active; creating a chat and rewriting messages preserve the length;
    and removal preserves nonemptiness whenever the id of some session differs
    from the removed id — only a list of two or more sessions all sharing
    the removed id can become empty. -/
theorem c10_init_and_remove :
    (∀ (stored : Option (Option (List ChatSession))) (fresh : ChatSession),
        1 ≤ (initChats stored fresh).length)
    ∧ (∀ (chatId active : List Char) (fresh : ChatSession) (prev : List ChatSession),
        prev.length ≤ 1 → removeChat chatId active fresh prev = ([fresh], fresh.id))
    ∧ (∀ (chatId active : List Char) (fresh : ChatSession) (prev : List ChatSession),
        (∃ c ∈ prev, c.id ≠ chatId) → 1 ≤ (removeChat chatId active fresh prev).1.length)
    ∧ (∀ (fresh : ChatSession) (prev : List ChatSession),
        1 ≤ (createNewChat fresh prev).length)
    ∧ (∀ (chatId : List Char) (updater : List ChatMessage → List ChatMessage)
          (title : List ChatMessage → List Char) (now : List Char)
          (prev : List ChatSession),
        (updateActiveChatMessages chatId updater title now prev).length = prev.length) := by
  refine ⟨?_, ?_, ?_, ?_, ?_⟩
  · intro stored fresh
    match stored with
    | none => simp [initChats]
    | some none => simp [initChats]
    | some (some parsed) =>
      simp only [initChats]
      split_ifs with h
      · omega
      · simp
  · intro chatId active fresh prev hlen
    unfold removeChat
    rw [if_pos hlen]
  · rintro chatId active fresh prev ⟨c, hc, hne⟩
    simp only [removeChat]
    split_ifs with hlen
    · simp
    all_goals
      have hmemf : c ∈ prev.filter (fun c => c.id ≠ chatId) := by
        rw [List.mem_filter]
        exact ⟨hc, by simpa using hne⟩
      have := List.length_pos_of_mem hmemf
      simpa using this
  · intro fresh prev
    simp [createNewChat]
  · intro chatId updater title now prev
    simp [updateActiveChatMessages]

theorem c10_witness :
    ([dupSession].length ≤ 1)
    ∧ removeChat ['z'] ['a'] dupSession [dupSession] = ([dupSession], dupSession.id)
    ∧ 1 ≤ (initChats (some (some [])) dupSession).length := by
  refine ⟨by decide, ?_, ?_⟩
  · exact c10_init_and_remove.2.1 ['z'] ['a'] dupSession [dupSession] (by decide)
  · exact c10_init_and_remove.1 (some (some [])) dupSession
